import Mathlib

/-!
Shallow embedding of the core of the gemini differential-testing tool:
the typed pretty-printing protocol (`pkg/typedef/bag.go`, the `Stmt`,
`Values` and `StatementType` parts of `pkg/typedef`), the store retry and
error-classification logic (`store.cqlStore.mutate` / `doMutate` /
`ignore`), and the worker coordinator (`runJob` / `MixedJob` of
`cmd/gemini/root.go`).

Go strings are modelled as `List Char`; Go `interface{}` bound values as
the inductive `Value`; fallible code (Go `error` results, `panic`) as
`Option`.  Mutable `*rand.Rand` sources are modelled by explicit state
passing of an infinite stream of naturals.
-/

/-- A bound cell (`interface{}` in the Go source).  The generated values the
claims exercise are integers and slices of values; `slice` is what Go's
`reflect.TypeOf(v).Kind() == reflect.Slice` recognises. -/
inductive Value where
  | int : Int → Value
  | slice : List Value → Value

instance : Inhabited Value := ⟨Value.int 0⟩

/-- `reflect.TypeOf(value[0]).Kind() == reflect.Slice` from `bag.go`. -/
def Value.isSlice : Value → Bool
  | .slice _ => true
  | .int _ => false

/-- `type Values []interface{}` from `pkg/typedef`. -/
abbrev Values := List Value

/-- Number of `?` placeholder characters in a query string. -/
def countQ : List Char → Nat
  | [] => 0
  | c :: cs => (if c = '?' then 1 else 0) + countQ cs

/-- `strings.Replace(query, "?", lit, 1)`: replace the leftmost `?`. -/
def replaceFirstQ : List Char → List Char → List Char
  | [], _ => []
  | c :: cs, lit => if c = '?' then lit ++ cs else c :: replaceFirstQ cs lit

/-- `strings.TrimRight(s, ",")`: drop the maximal run of trailing commas. -/
def trimRightComma : List Char → List Char
  | [] => []
  | c :: cs =>
    match trimRightComma cs with
    | [] => if c = ',' then [] else [c]
    | r :: rs => c :: r :: rs

/-- The decimal digit characters. -/
def digitOf (n : Nat) : Char :=
  match n with
  | 0 => '0' | 1 => '1' | 2 => '2' | 3 => '3' | 4 => '4'
  | 5 => '5' | 6 => '6' | 7 => '7' | 8 => '8' | _ => '9'

/-- Decimal rendering of a natural number. -/
def natChars (n : Nat) : List Char :=
  if _h : n < 10 then [digitOf n]
  else natChars (n / 10) ++ [digitOf (n % 10)]
decreasing_by
  exact Nat.div_lt_self (by omega) (by omega)

/-- Decimal rendering of an integer. -/
def intChars (i : Int) : List Char :=
  if i < 0 then '-' :: natChars i.natAbs else natChars i.toNat

/-- Modelled from the spec: the scalar pretty-printers of `SimpleType`
(`pkg/typedef/simple_type.go`, not under `src/`) produce a CQL literal for
one `?` placeholder; the integer scalars of the generated schema render as
decimal text.  The `slice` case cannot arise for a well-typed scalar cell. -/
def cqlLiteral : Value → List Char
  | .int i => intChars i
  | .slice _ => ['[', ']']

/-- Modelled from the spec: `SimpleType` (`pkg/typedef/simple_type.go`, not
under `src/`) is a string naming a CQL scalar type. -/
abbrev SimpleType := String

/-- Modelled from the spec: `SimpleType.CQLPretty` replaces the leftmost `?`
of the query with a CQL literal of the first remaining value and reports one
value consumed (`LenValue() = 1` for scalars). -/
def SimpleType.CQLPretty (_t : SimpleType) (query : List Char) (value : List Value) :
    List Char × Nat :=
  match value with
  | [] => (query, 0)
  | v :: _ => (replaceFirstQ query (cqlLiteral v), 1)

/-- Modelled from the spec: scalar types contribute a single `?` holder. -/
def SimpleType.CQLHolder (_t : SimpleType) : List Char := ['?']

/-- Modelled from the spec: scalars consume one bound value per occurrence. -/
def SimpleType.LenValue (_t : SimpleType) : Nat := 1

/-- Modelled from the spec: `TYPE_SET` (`pkg/typedef`, not under `src/`) is
the complex-type tag `"set"`. -/
def TYPE_SET : String := "set"

/-- Modelled from the spec: the complex-type tag `"list"`. -/
def TYPE_LIST : String := "list"

/-- `BagType` from `pkg/typedef/bag.go`. -/
structure BagType where
  ComplexType : String
  ValueType : SimpleType
  Frozen : Bool
deriving DecidableEq

/-- Opening bracket chosen in `BagType.CQLPretty`: `{` for sets, `[` else. -/
def bagOpen (ct : BagType) : Char :=
  if ct.ComplexType = TYPE_SET then '{' else '['

/-- Closing bracket chosen in `BagType.CQLPretty`: `}` for sets, `]` else. -/
def bagClose (ct : BagType) : Char :=
  if ct.ComplexType = TYPE_SET then '}' else ']'

/-- `strings.Repeat("?,", n)`. -/
def repQ : Nat → List Char
  | 0 => []
  | n + 1 => '?' :: ',' :: repQ n

/-- The element loop of `BagType.CQLPretty`: each element of the slice is
pretty-printed into the holder string via `ct.ValueType.CQLPretty`. -/
def prettyElems (t : SimpleType) (q : List Char) (elems : List Value) : List Char :=
  elems.foldl (fun acc e => (SimpleType.CQLPretty t acc [e]).1) q

/-- `BagType.CQLPretty` from `bag.go`: on an empty values list returns the
query with zero consumed; on a non-slice first value panics (`none`);
otherwise builds the bracketed holder `[?,...,?]` / `{?,...,?}`, fills it
with the element literals, and substitutes it for the leftmost `?` of the
query, consuming one value. -/
def BagType.CQLPretty (ct : BagType) (query : List Char) (value : List Value) :
    Option (List Char × Nat) :=
  match value with
  | [] => some (query, 0)
  | v :: _ =>
    match v with
    | .slice s =>
      let vv := trimRightComma (bagOpen ct :: repQ s.length) ++ [bagClose ct]
      let vv := prettyElems ct.ValueType vv s
      some (replaceFirstQ query vv, 1)
    | .int _ => none

/-- `BagType.CQLHolder` from `bag.go`: always `"?"`. -/
def BagType.CQLHolder (_ct : BagType) : List Char := ['?']

/-- `BagType.LenValue` from `bag.go`: always `1`. -/
def BagType.LenValue (_ct : BagType) : Nat := 1

/-- Modelled from the spec: the constant bag/map/udt size bound
`maxBagSize` (`pkg/typedef`, not under `src/`), e.g. 10. -/
def maxBagSize : Nat := 10

/-- A random source: Go's mutable `*rand.Rand` modelled as an infinite
stream of naturals, advanced by explicit state passing. -/
def RandSource := Nat → Nat

/-- Discard the first draw of the stream. -/
def RandSource.tail (r : RandSource) : RandSource := fun n => r (n + 1)

/-- `PartitionRangeConfig` from `pkg/typedef`. -/
structure PartitionRangeConfig where
  MaxBlobLength : Int
  MinBlobLength : Int
  MaxStringLength : Int
  MinStringLength : Int
  UseLWT : Bool

/-- Modelled from the spec: `utils.RandInt2(r, lo, hi)` (`pkg/utils`, not
under `src/`) draws a uniform integer in `[lo, hi)`, advancing the source. -/
def RandInt2 (r : RandSource) (lo hi : Nat) : Nat × RandSource :=
  (lo + r 0 % (hi - lo), r.tail)

/-- Modelled from the spec: `SimpleType.GenValue` (not under `src/`) returns
a vector of `LenValue() = 1` driver-encodable cells drawn from the source. -/
def SimpleType.GenValue (_t : SimpleType) (r : RandSource) (_p : PartitionRangeConfig) :
    List Value × RandSource :=
  ([Value.int (Int.ofNat (r 0))], r.tail)

/-- The element loop of `BagType.GenValue`: `out[i] = ValueType.GenValue(r, p)[0]`. -/
def genBagElems (t : SimpleType) (p : PartitionRangeConfig) :
    Nat → RandSource → List Value × RandSource
  | 0, r => ([], r)
  | n + 1, r =>
    let (vs, r') := SimpleType.GenValue t r p
    let (rest, r'') := genBagElems t p n r'
    (vs.headI :: rest, r'')

/-- `BagType.GenValue` from `bag.go`: draw `count` in `[1, maxBagSize + 1)`,
generate `count` elements with the wrapped value type, and return them as a
single slice cell. -/
def BagType.GenValue (ct : BagType) (r : RandSource) (p : PartitionRangeConfig) :
    List Value × RandSource :=
  let (count, r') := RandInt2 r 1 (maxBagSize + 1)
  let (out, r'') := genBagElems ct.ValueType p count r'
  ([Value.slice out], r'')

/-- The column types in scope of the specified core: scalars and bags
(the `Type` interface of `pkg/typedef`, restricted to the variants the
claims and the sources under `src/` exercise). -/
inductive ColType where
  | simple : SimpleType → ColType
  | bag : BagType → ColType

/-- Interface dispatch of `CQLPretty`; `none` models a Go panic. -/
def ColType.CQLPretty : ColType → List Char → List Value → Option (List Char × Nat)
  | .simple t, q, vs => some (SimpleType.CQLPretty t q vs)
  | .bag b, q, vs => BagType.CQLPretty b q vs

/-- Interface dispatch of `CQLHolder`. -/
def ColType.CQLHolder : ColType → List Char
  | .simple t => SimpleType.CQLHolder t
  | .bag b => BagType.CQLHolder b

/-- Interface dispatch of `LenValue`. -/
def ColType.LenValue : ColType → Nat
  | .simple t => SimpleType.LenValue t
  | .bag b => BagType.LenValue b

/-- Modelled from the spec: `StatementType` is a closed enum of the
statement kinds of §4.3; the constants (`pkg/typedef/statements.go`, not
under `src/`) include the two named in `PossibleAsyncOperation`. -/
inductive StatementType where
  | InsertStatementType
  | InsertIfNotExistsStatementType
  | UpdateStatementType
  | DeleteRowStatementType
  | DeleteRangeStatementType
  | SelectByPkStatementType
  | SelectByIndexStatementType
  | SelectFromMaterializedViewStatementType
  | SelectRangeStatementType
deriving DecidableEq

/-- `StatementType.PossibleAsyncOperation` from `pkg/typedef`: true exactly
on the two select kinds whose oracle may lag the SUT. -/
def StatementType.PossibleAsyncOperation (st : StatementType) : Bool :=
  match st with
  | .SelectByIndexStatementType | .SelectFromMaterializedViewStatementType => true
  | _ => false

/-- `Stmt` from `pkg/typedef` (with its embedded `StmtCache`); the opaque
`qb.Builder` is modelled by the query string its `ToCql()` returns. -/
structure Stmt where
  Query : List Char
  Types : List ColType
  QueryType : StatementType
  Values : Values

/-- `Values.Copy` from `pkg/typedef`: `make` a fresh sequence of the same
length and `copy` the elements over. -/
def Values.Copy (v : Values) : Values :=
  List.ofFn fun i : Fin v.length => v.get i

/-- The substitution loop of `Stmt.PrettyCQL`: walk the types, let each
replace its placeholders and advance the values by the consumed count;
`break` (returning the current query) if a type reports more consumed
values than remain. -/
def prettyLoop : List ColType → List Char → List Value → Option (List Char)
  | [], query, _ => some query
  | typ :: rest, query, values =>
    match ColType.CQLPretty typ query values with
    | none => none
    | some (query', replaced) =>
      if replaced ≤ values.length then prettyLoop rest query' (values.drop replaced)
      else some query'

/-- `Stmt.PrettyCQL` from `pkg/typedef`: operate on a copy of the bound
values; return the query unchanged when there are none. -/
def Stmt.PrettyCQL (s : Stmt) : Option (List Char) :=
  match Values.Copy s.Values with
  | [] => some s.Query
  | v :: vs => prettyLoop s.Types s.Query (v :: vs)

/-- Total `?` holders declared by a type list. -/
def holderCount (ts : List ColType) : Nat :=
  (ts.map (fun t => countQ t.CQLHolder)).sum

/-- Total bound values declared by a type list (`sum LenValue`). -/
def valuesDeclared (ts : List ColType) : Nat :=
  (ts.map ColType.LenValue).sum

/-- A value is acceptable to a type's pretty-printer: bags require a slice
(anything else hits the panic branch of `BagType.CQLPretty`). -/
def matchesB : ColType → Value → Bool
  | .bag _, v => v.isSlice
  | .simple _, _ => true

/-- Pointwise well-typedness of the leading values against the types. -/
def wellTypedB : List ColType → List Value → Bool
  | [], _ => true
  | _ :: _, [] => true
  | t :: ts, v :: vs => matchesB t v && wellTypedB ts vs

/-- Go `error` values reaching the store: the two context sentinels, any
other driver error, and `errors.Wrapf` wrapping (message plus cause). -/
inductive GoErr where
  | canceled
  | deadlineExceeded
  | readNoData
  | other : String → GoErr
  | wrapped : String → GoErr → GoErr
deriving DecidableEq

/-- `errors.Is(e, target)`: equality, else unwrap the cause chain. -/
def GoErr.is : GoErr → GoErr → Bool
  | .wrapped m inner, target => (GoErr.wrapped m inner = target) || GoErr.is inner target
  | e, target => e = target

/-- `ignore` from the store: `nil`, `context.Canceled` and
`context.DeadlineExceeded` (via `errors.Is`) are ignorable. -/
def ignore : Option GoErr → Bool
  | none => true
  | some e => e.is .canceled || e.is .deadlineExceeded

/-- `cqlStore` from the store file, restricted to the fields the retry and
error logic reads (session, metrics, logger and sleep are external I/O). -/
structure cqlStore where
  system : String
  maxRetriesMutate : Nat

/-- The `errors.Wrapf` message of `doMutate`. -/
def wrapMsg (system queryBody : String) : String :=
  "[cluster = " ++ system ++ ", query = '" ++ queryBody ++ "']"

/-- `cqlStore.doMutate` from the store: execute the query (its outcome is
the environment's `execErr`); a `nil` or ignorable error yields success,
any other error is propagated wrapped with cluster and query context. -/
def cqlStore.doMutate (cs : cqlStore) (queryBody : String) (execErr : Option GoErr) :
    Option GoErr :=
  match execErr with
  | none => none
  | some e => if ignore (some e) then none else some (.wrapped (wrapMsg cs.system queryBody) e)

/-- The retry loop of `cqlStore.mutate`: attempt `i` yields `attempt i`
(the result of that call to `doMutate`); on success return `nil`, otherwise
check cancellation, sleep and retry; when the attempts are exhausted return
the last error (`nil` if the loop never ran). -/
def mutateLoop (attempt : Nat → Option GoErr) (ctxDone : Nat → Bool) (ctxErr : GoErr) :
    Nat → Nat → Option GoErr → Option GoErr
  | _, 0, last => last
  | i, fuel + 1, _ =>
    match attempt i with
    | none => none
    | some e =>
      if ctxDone i then some ctxErr
      else mutateLoop attempt ctxDone ctxErr (i + 1) fuel (some e)

/-- `cqlStore.mutate` from the store: up to `maxRetriesMutate` attempts,
each a fresh-timestamp `doMutate` whose outcome is `attempt i`. -/
def cqlStore.mutate (cs : cqlStore) (ctxDone : Nat → Bool) (ctxErr : GoErr)
    (attempt : Nat → Option GoErr) : Option GoErr :=
  mutateLoop attempt ctxDone ctxErr 0 cs.maxRetriesMutate none

/-- `Status` from `cmd/gemini/root.go`. -/
structure Status where
  WriteOps : Nat
  WriteErrors : Nat
  ReadOps : Nat
  ReadErrors : Nat
deriving DecidableEq

/-- `gemini.ErrReadNoDataReturned`: the distinguished empty-read sentinel
(declared in the `gemini` package, compared by the worker). -/
def ErrReadNoDataReturned : GoErr := .readNoData

/-- The mutation half of a `MixedJob` iteration: count the write, and count
a write error exactly when the mutation returned one. -/
def mutateStep (st : Status) (err : Option GoErr) : Status :=
  let st := { st with WriteOps := st.WriteOps + 1 }
  match err with
  | none => st
  | some _ => { st with WriteErrors := st.WriteErrors + 1 }

/-- The check half of a `MixedJob` iteration: a `nil` result counts a read;
an `ErrReadNoDataReturned` result is silently skipped; any other error
counts a read error. -/
def checkStep (st : Status) (err : Option GoErr) : Status :=
  match err with
  | none => { st with ReadOps := st.ReadOps + 1 }
  | some e =>
    if e ≠ ErrReadNoDataReturned then { st with ReadErrors := st.ReadErrors + 1 }
    else st

/-- One full `MixedJob` iteration's effect on the worker `Status`, given the
results of the dispatched mutate and check. -/
def MixedJobIter (st : Status) (mutErr chkErr : Option GoErr) : Status :=
  checkStep (mutateStep st mutErr) chkErr

/-- `PartitionRange` from the `gemini` package, as built by `runJob`. -/
structure PartitionRange where
  Min : Int
  Max : Int
deriving DecidableEq

/-- The range `runJob` hands to worker `i`:
`{Min: minRange + i*maxRange, Max: maxRange + i*maxRange}` with
`minRange = 0` and `maxRange = pkNumberPerThread`. -/
def runJobRange (pkNumberPerThread : Int) (i : Int) : PartitionRange :=
  { Min := 0 + i * pkNumberPerThread, Max := pkNumberPerThread + i * pkNumberPerThread }

/-- The set of partition-key seeds a range owns: the half-open interval. -/
def PartitionRange.toSet (p : PartitionRange) : Set Int :=
  Set.Ico p.Min p.Max

/-- The comma-led tail `",?,?..."` of a placeholder separator list. -/
def commaQ : Nat → List Char
  | 0 => []
  | n + 1 => ',' :: '?' :: commaQ n

/-- `"?,?,...,?"`: `n` placeholders separated by commas (the bag holder
body after the trailing comma is trimmed). -/
def sepQ : Nat → List Char
  | 0 => []
  | n + 1 => '?' :: commaQ n

/-- The element literals joined by commas: `lit1,lit2,...,litk`. -/
def interLit : List Value → List Char
  | [] => []
  | [v] => cqlLiteral v
  | v :: vs => cqlLiteral v ++ ',' :: interLit vs

lemma countQ_append (a b : List Char) : countQ (a ++ b) = countQ a + countQ b := by
  induction a with
  | nil => simp [countQ]
  | cons c cs ih =>
    rw [List.cons_append, countQ, countQ, ih]
    omega

lemma replaceFirstQ_of_no_q (q lit : List Char) (h : countQ q = 0) :
    replaceFirstQ q lit = q := by
  induction q with
  | nil => rfl
  | cons c cs ih =>
    rw [countQ] at h
    have hc : c ≠ '?' := by
      intro hc
      simp [hc] at h
    simp only [if_neg hc, Nat.zero_add] at h
    simp [replaceFirstQ, hc, ih h]

lemma replaceFirstQ_append_left (a b lit : List Char) (h : countQ a = 0) :
    replaceFirstQ (a ++ b) lit = a ++ replaceFirstQ b lit := by
  induction a with
  | nil => simp
  | cons c cs ih =>
    rw [countQ] at h
    have hc : c ≠ '?' := by
      intro hc
      simp [hc] at h
    simp only [if_neg hc, Nat.zero_add] at h
    simp [replaceFirstQ, hc, ih h]

lemma replaceFirstQ_emit (pre suf lit : List Char) (h : countQ pre = 0) :
    replaceFirstQ (pre ++ '?' :: suf) lit = pre ++ (lit ++ suf) := by
  rw [replaceFirstQ_append_left _ _ _ h]
  simp [replaceFirstQ]

lemma countQ_replaceFirstQ (q lit : List Char) (h : 0 < countQ q) :
    countQ (replaceFirstQ q lit) = countQ q - 1 + countQ lit := by
  induction q with
  | nil => simp [countQ] at h
  | cons c cs ih =>
    by_cases hc : c = '?'
    · subst hc
      simp [replaceFirstQ, countQ, countQ_append]
      omega
    · rw [countQ, if_neg hc, Nat.zero_add] at h
      rw [replaceFirstQ, if_neg hc, countQ, countQ, if_neg hc, ih h]
      omega

lemma digitOf_ne_q (n : Nat) : digitOf n ≠ '?' := by
  unfold digitOf
  split <;> decide

lemma countQ_natChars (n : Nat) : countQ (natChars n) = 0 := by
  induction n using Nat.strong_induction_on with
  | _ n ih =>
    unfold natChars
    split
    · simp [countQ, digitOf_ne_q n]
    · rename_i h
      rw [countQ_append, ih (n / 10) (Nat.div_lt_self (by omega) (by omega))]
      simp [countQ, digitOf_ne_q]

lemma countQ_intChars (i : Int) : countQ (intChars i) = 0 := by
  unfold intChars
  split
  · rw [countQ, countQ_natChars]
    simp
  · exact countQ_natChars _

lemma countQ_cqlLiteral (v : Value) : countQ (cqlLiteral v) = 0 := by
  cases v with
  | int i => exact countQ_intChars i
  | slice vs =>
    show countQ ['[', ']'] = 0
    decide

lemma countQ_commaQ (n : Nat) : countQ (commaQ n) = n := by
  induction n with
  | zero => rfl
  | succ n ih =>
    simp [commaQ, countQ, ih]
    omega

lemma countQ_sepQ (n : Nat) : countQ (sepQ n) = n := by
  cases n with
  | zero => rfl
  | succ n =>
    simp [sepQ, countQ, countQ_commaQ]
    omega

lemma trim_repQ : ∀ n, trimRightComma (repQ (n + 1)) = sepQ (n + 1)
  | 0 => rfl
  | n + 1 => by
    have ih := trim_repQ n
    rw [repQ, trimRightComma]
    rw [show trimRightComma (',' :: repQ (n + 1)) =
          match trimRightComma (repQ (n + 1)) with
          | [] => if ',' = ',' then [] else [',']
          | r :: rs => ',' :: r :: rs from rfl]
    rw [ih]
    simp [sepQ, commaQ]

lemma trim_cons_repQ (c : Char) (hc : c ≠ ',') : ∀ n, trimRightComma (c :: repQ n) = c :: sepQ n
  | 0 => by simp [repQ, trimRightComma, sepQ, hc]
  | n + 1 => by
    rw [trimRightComma, trim_repQ n]
    simp [sepQ]

lemma prettyElems_cons (t : SimpleType) (q : List Char) (e : Value) (rest : List Value) :
    prettyElems t q (e :: rest) = prettyElems t (replaceFirstQ q (cqlLiteral e)) rest := rfl

lemma prettyElems_fill (t : SimpleType) :
    ∀ (elems : List Value) (pre : List Char) (cl : Char), countQ pre = 0 →
      prettyElems t (pre ++ sepQ elems.length ++ [cl]) elems = pre ++ interLit elems ++ [cl]
  | [], pre, cl, _ => by simp [prettyElems, sepQ, interLit]
  | [e], pre, cl, h => by
    rw [List.length_singleton, prettyElems_cons]
    rw [show sepQ 1 = ['?'] from rfl]
    rw [show pre ++ ['?'] ++ [cl] = pre ++ '?' :: [cl] by simp]
    rw [replaceFirstQ_emit _ _ _ h]
    simp [prettyElems, interLit]
  | e :: e' :: es, pre, cl, h => by
    rw [prettyElems_cons]
    rw [show (e :: e' :: es).length = (e' :: es).length + 1 from rfl]
    rw [show sepQ ((e' :: es).length + 1) = '?' :: ',' :: sepQ (e' :: es).length by
      cases es <;> simp [sepQ, commaQ]]
    rw [show pre ++ '?' :: ',' :: sepQ (e' :: es).length ++ [cl] =
          pre ++ '?' :: (',' :: sepQ (e' :: es).length ++ [cl]) by simp]
    rw [replaceFirstQ_emit _ _ _ h]
    have hpre : countQ (pre ++ cqlLiteral e ++ [',']) = 0 := by
      rw [countQ_append, countQ_append, h, countQ_cqlLiteral]
      decide
    have := prettyElems_fill t (e' :: es) (pre ++ cqlLiteral e ++ [',']) cl hpre
    rw [show pre ++ (cqlLiteral e ++ (',' :: sepQ (e' :: es).length ++ [cl])) =
          (pre ++ cqlLiteral e ++ [',']) ++ sepQ (e' :: es).length ++ [cl] by simp] 
    rw [this]
    simp [interLit]

lemma bagOpen_ne_comma (ct : BagType) : bagOpen ct ≠ ',' := by
  unfold bagOpen
  split <;> decide

lemma countQ_bagOpen (ct : BagType) : countQ [bagOpen ct] = 0 := by
  unfold bagOpen countQ
  split <;> decide

lemma bag_vv (ct : BagType) (query : List Char) (elems rest : List Value) :
    BagType.CQLPretty ct query (Value.slice elems :: rest) =
      some (replaceFirstQ query (bagOpen ct :: (interLit elems ++ [bagClose ct])), 1) := by
  show some
      (replaceFirstQ query
        (prettyElems ct.ValueType
          (trimRightComma (bagOpen ct :: repQ elems.length) ++ [bagClose ct]) elems), 1) = _
  rw [trim_cons_repQ _ (bagOpen_ne_comma ct)]
  rw [show (bagOpen ct :: sepQ elems.length) ++ [bagClose ct] =
        [bagOpen ct] ++ sepQ elems.length ++ [bagClose ct] by simp]
  rw [prettyElems_fill _ _ _ _ (countQ_bagOpen ct)]
  simp

lemma countQ_interLit (elems : List Value) : countQ (interLit elems) = 0 := by
  induction elems with
  | nil => rfl
  | cons e rest ih =>
    cases rest with
    | nil => exact countQ_cqlLiteral e
    | cons e' es =>
      rw [show interLit (e :: e' :: es) = cqlLiteral e ++ ',' :: interLit (e' :: es) from rfl]
      rw [countQ_append, countQ_cqlLiteral, countQ]
      rw [ih]
      decide

lemma countQ_bag_lit (ct : BagType) (elems : List Value) :
    countQ (bagOpen ct :: (interLit elems ++ [bagClose ct])) = 0 := by
  rw [countQ, countQ_append, countQ_interLit]
  have h1 : (if bagOpen ct = '?' then 1 else 0) = 0 := by
    unfold bagOpen
    split <;> decide
  have h2 : countQ [bagClose ct] = 0 := by
    unfold bagClose countQ
    split <;> decide
  omega

lemma countQ_holder (t : ColType) : countQ t.CQLHolder = 1 := by
  cases t <;> rfl

lemma lenValue_one (t : ColType) : t.LenValue = 1 := by
  cases t <;> rfl

lemma holderCount_cons (t : ColType) (ts : List ColType) :
    holderCount (t :: ts) = 1 + holderCount ts := by
  simp [holderCount, countQ_holder]

lemma valuesDeclared_eq_length (ts : List ColType) : valuesDeclared ts = ts.length := by
  induction ts with
  | nil => rfl
  | cons t ts ih =>
    simp [valuesDeclared, lenValue_one] at ih ⊢
    omega

lemma values_copy_eq (v : Values) : Values.Copy v = v := by
  simp [Values.Copy, List.ofFn_get v]

lemma prettyLoop_exhausts :
    ∀ (ts : List ColType) (q : List Char) (vs : List Value),
      countQ q = holderCount ts → ts.length ≤ vs.length → wellTypedB ts vs = true →
      ∃ out, prettyLoop ts q vs = some out ∧ countQ out = 0
  | [], q, vs, hq, _, _ => ⟨q, rfl, by simpa [holderCount] using hq⟩
  | t :: ts, q, [], _, hl, _ => by simp at hl
  | t :: ts, q, v :: vs, hq, hl, hwt => by
    rw [holderCount_cons] at hq
    rw [wellTypedB] at hwt
    have hmt : matchesB t v = true := (Bool.and_eq_true .. ▸ hwt).1
    have hwt' : wellTypedB ts vs = true := (Bool.and_eq_true .. ▸ hwt).2
    have hl' : ts.length ≤ vs.length := by simpa using hl
    have hqpos : 0 < countQ q := by omega
    cases t with
    | simple st =>
      have hstep : ColType.CQLPretty (.simple st) q (v :: vs) =
          some (replaceFirstQ q (cqlLiteral v), 1) := rfl
      have hcount : countQ (replaceFirstQ q (cqlLiteral v)) = holderCount ts := by
        rw [countQ_replaceFirstQ _ _ hqpos, countQ_cqlLiteral]
        omega
      obtain ⟨out, hout, hzero⟩ := prettyLoop_exhausts ts (replaceFirstQ q (cqlLiteral v)) vs
        hcount hl' hwt'
      refine ⟨out, ?_, hzero⟩
      rw [prettyLoop, hstep]
      simpa using hout
    | bag b =>
      cases v with
      | int i => simp [matchesB, Value.isSlice] at hmt
      | slice elems =>
        have hstep : ColType.CQLPretty (.bag b) q (Value.slice elems :: vs) =
            some (replaceFirstQ q (bagOpen b :: (interLit elems ++ [bagClose b])), 1) :=
          bag_vv b q elems vs
        have hcount :
            countQ (replaceFirstQ q (bagOpen b :: (interLit elems ++ [bagClose b]))) =
              holderCount ts := by
          rw [countQ_replaceFirstQ _ _ hqpos, countQ_bag_lit]
          omega
        obtain ⟨out, hout, hzero⟩ := prettyLoop_exhausts ts
          (replaceFirstQ q (bagOpen b :: (interLit elems ++ [bagClose b]))) vs
          hcount hl' hwt'
        refine ⟨out, ?_, hzero⟩
        rw [prettyLoop, hstep]
        simpa using hout

lemma mutateLoop_success (attempt : Nat → Option GoErr) (ctxErr : GoErr) :
    ∀ (fuel k start : Nat) (last : Option GoErr), k < fuel →
      (∀ i, start ≤ i → i < start + k → attempt i ≠ none) → attempt (start + k) = none →
      mutateLoop attempt (fun _ => false) ctxErr start fuel last = none := by
  intro fuel
  induction fuel with
  | zero => omega
  | succ f ih =>
    intro k start last hk hfail hsucc
    cases k with
    | zero =>
      rw [mutateLoop]
      simp only [Nat.add_zero] at hsucc
      rw [hsucc]
    | succ k' =>
      have hs : attempt start ≠ none := hfail start le_rfl (by omega)
      cases ha : attempt start with
      | none => exact absurd ha hs
      | some e =>
        rw [mutateLoop, ha]
        simp only [if_neg (by simp : ¬ (false = true))]
        have hshift : ∀ i, start + 1 ≤ i → i < start + 1 + k' → attempt i ≠ none := by
          intro i h1 h2
          exact hfail i (by omega) (by omega)
        have hsucc' : attempt (start + 1 + k') = none := by
          rw [show start + 1 + k' = start + (k' + 1) by omega]
          exact hsucc
        exact ih k' (start + 1) (some e) (by omega) hshift hsucc'

lemma mutateLoop_all_fail (attempt : Nat → Option GoErr) (ctxErr : GoErr) :
    ∀ (fuel start : Nat) (last : Option GoErr), 0 < fuel →
      (∀ i, start ≤ i → i < start + fuel → attempt i ≠ none) →
      mutateLoop attempt (fun _ => false) ctxErr start fuel last =
        attempt (start + fuel - 1) := by
  intro fuel
  induction fuel with
  | zero => omega
  | succ f ih =>
    intro start last _ hfail
    cases ha : attempt start with
    | none => exact absurd ha (hfail start le_rfl (by omega))
    | some e =>
      rw [mutateLoop, ha]
      simp only [if_neg (by simp : ¬ (false = true))]
      cases f with
      | zero =>
        rw [mutateLoop]
        rw [show start + 1 - 1 = start by omega, ha]
      | succ f' =>
        have hshift : ∀ i, start + 1 ≤ i → i < start + 1 + (f' + 1) → attempt i ≠ none := by
          intro i h1 h2
          exact hfail i (by omega) (by omega)
        rw [ih (start + 1) (some e) (by omega) hshift]
        rw [show start + 1 + (f' + 1) - 1 = start + (f' + 1 + 1) - 1 by omega]

lemma genBagElems_length (t : SimpleType) (p : PartitionRangeConfig) :
    ∀ (n : Nat) (r : RandSource), ((genBagElems t p n r).1).length = n
  | 0, _ => rfl
  | n + 1, r => by
    simp [genBagElems, SimpleType.GenValue, genBagElems_length t p n]

/-- Claim C6: `PossibleAsyncOperation()` returns true if and only if the
statement type is `SelectByIndexStatementType` or
`SelectFromMaterializedViewStatementType`; on every other value of the
closed enum it returns false. -/
theorem possibleAsync_iff (st : StatementType) :
    st.PossibleAsyncOperation = true ↔
      (st = StatementType.SelectByIndexStatementType ∨
        st = StatementType.SelectFromMaterializedViewStatementType) := by
  cases st <;> simp [StatementType.PossibleAsyncOperation]

/-- Claim C7: on a non-empty values list headed by a slice, `BagType.CQLPretty`
replaces exactly the leftmost `?` of the query with the element literals
joined by commas and wrapped in `[...]` for a list (`{...}` when
`ComplexType` is the set tag), reporting exactly one value consumed; and
`CQLHolder` is `"?"` while `LenValue` is `1`. -/
theorem bag_cqlpretty_shape (ct : BagType) (query : List Char) (elems rest : List Value) :
    BagType.CQLPretty ct query (Value.slice elems :: rest) =
      some (replaceFirstQ query (bagOpen ct :: (interLit elems ++ [bagClose ct])), 1) ∧
    BagType.CQLHolder ct = ['?'] ∧ BagType.LenValue ct = 1 :=
  ⟨bag_vv ct query elems rest, rfl, rfl⟩

/-- Claim C8: for every bag type, random source and range config, `GenValue`
returns a single bound cell holding a slice of between `1` and `maxBagSize`
elements — in particular never an empty sequence. -/
theorem bag_genvalue_bounds (ct : BagType) (r : RandSource) (p : PartitionRangeConfig) :
    ∃ elems, (BagType.GenValue ct r p).1 = [Value.slice elems] ∧
      1 ≤ elems.length ∧ elems.length ≤ maxBagSize := by
  refine ⟨(genBagElems ct.ValueType p (1 + r 0 % (maxBagSize + 1 - 1)) r.tail).1, rfl, ?_, ?_⟩
  · rw [genBagElems_length]
    omega
  · rw [genBagElems_length]
    have h : r 0 % (maxBagSize + 1 - 1) < maxBagSize + 1 - 1 :=
      Nat.mod_lt _ (by simp [maxBagSize])
    omega

/-- Claim C9: `BagType.CQLPretty` on a non-empty values list whose first
value is not a slice hits the fatal type-mismatch branch (modelled as
`none`); when the first value is a slice, the mismatch branch is
unreachable and it returns normally. -/
theorem bag_cqlpretty_mismatch (ct : BagType) (query : List Char) (v : Value)
    (rest : List Value) :
    (v.isSlice = false → BagType.CQLPretty ct query (v :: rest) = none) ∧
    (v.isSlice = true → ∃ out, BagType.CQLPretty ct query (v :: rest) = some out) := by
  cases v with
  | int i => exact ⟨fun _ => rfl, fun h => by simp [Value.isSlice] at h⟩
  | slice elems =>
    exact ⟨fun h => by simp [Value.isSlice] at h, fun _ => ⟨_, bag_vv ct query elems rest⟩⟩

theorem bag_cqlpretty_mismatch_witness :
    ((Value.int 3).isSlice = false ∧
      BagType.CQLPretty ⟨"list", "int", false⟩ ['?'] [Value.int 3] = none) ∧
    ((Value.slice []).isSlice = true ∧
      ∃ out, BagType.CQLPretty ⟨"list", "int", false⟩ ['?'] [Value.slice []] = some out) :=
  ⟨⟨by decide, (bag_cqlpretty_mismatch ⟨"list", "int", false⟩ ['?'] (Value.int 3) []).1 (by decide)⟩,
   ⟨by decide, (bag_cqlpretty_mismatch ⟨"list", "int", false⟩ ['?'] (Value.slice []) []).2 (by decide)⟩⟩

/-- Claim C10: `PrettyCQL` operates on `Values.Copy` of the statement's
bound values, and the copy is an element-wise equal, equal-length sequence;
the `Values` field observed after the call equals the one before, and
substituting the copy for the original cannot change the result. -/
theorem prettyCQL_values_frame (s : Stmt) :
    Values.Copy s.Values = s.Values ∧
    (Values.Copy s.Values).length = s.Values.length ∧
    Stmt.PrettyCQL { s with Values := Values.Copy s.Values } = Stmt.PrettyCQL s := by
  refine ⟨values_copy_eq s.Values, by rw [values_copy_eq s.Values], ?_⟩
  rw [values_copy_eq s.Values]

/-- Claim C4: in a worker iteration, a check result equal to the
distinguished `ErrReadNoDataReturned` increments neither `ReadOps` nor
`ReadErrors`; a `nil` result increments `ReadOps` by one; any other error
increments `ReadErrors` by one. -/
theorem mixedjob_check_counters (st : Status) (m r : Option GoErr) :
    (r = some ErrReadNoDataReturned →
      (MixedJobIter st m r).ReadOps = st.ReadOps ∧
      (MixedJobIter st m r).ReadErrors = st.ReadErrors) ∧
    (r = none →
      (MixedJobIter st m r).ReadOps = st.ReadOps + 1 ∧
      (MixedJobIter st m r).ReadErrors = st.ReadErrors) ∧
    (∀ e, r = some e → e ≠ ErrReadNoDataReturned →
      (MixedJobIter st m r).ReadErrors = st.ReadErrors + 1 ∧
      (MixedJobIter st m r).ReadOps = st.ReadOps) := by
  have hm1 : (mutateStep st m).ReadOps = st.ReadOps := by cases m <;> rfl
  have hm2 : (mutateStep st m).ReadErrors = st.ReadErrors := by cases m <;> rfl
  refine ⟨?_, ?_, ?_⟩
  · rintro rfl
    constructor <;> simp [MixedJobIter, checkStep, hm1, hm2]
  · rintro rfl
    constructor <;> simp [MixedJobIter, checkStep, hm1, hm2]
  · rintro e rfl hne
    constructor <;> simp [MixedJobIter, checkStep, hne, hm1, hm2]

theorem mixedjob_check_counters_witness :
    ((MixedJobIter ⟨0, 0, 0, 0⟩ none (some ErrReadNoDataReturned)).ReadOps = 0 ∧
      (MixedJobIter ⟨0, 0, 0, 0⟩ none (some ErrReadNoDataReturned)).ReadErrors = 0) ∧
    ((MixedJobIter ⟨0, 0, 0, 0⟩ none none).ReadOps = 0 + 1 ∧
      (MixedJobIter ⟨0, 0, 0, 0⟩ none none).ReadErrors = 0) ∧
    (GoErr.other "x" ≠ ErrReadNoDataReturned ∧
      (MixedJobIter ⟨0, 0, 0, 0⟩ none (some (GoErr.other "x"))).ReadErrors = 0 + 1 ∧
      (MixedJobIter ⟨0, 0, 0, 0⟩ none (some (GoErr.other "x"))).ReadOps = 0) :=
  ⟨(mixedjob_check_counters ⟨0, 0, 0, 0⟩ none (some ErrReadNoDataReturned)).1 rfl,
   (mixedjob_check_counters ⟨0, 0, 0, 0⟩ none none).2.1 rfl,
   by decide,
   (mixedjob_check_counters ⟨0, 0, 0, 0⟩ none (some (GoErr.other "x"))).2.2
     (GoErr.other "x") rfl (by decide)⟩

/-- Claim C1: for every statement whose query declares exactly the
placeholders of its types and whose well-typed values list is at least as
long as the total the types declare, `PrettyCQL` returns a query string
containing zero `?` characters. -/
theorem prettyCQL_exhausts_placeholders (s : Stmt)
    (hq : countQ s.Query = holderCount s.Types)
    (hv : valuesDeclared s.Types ≤ s.Values.length)
    (hwt : wellTypedB s.Types s.Values = true) :
    ∃ out, s.PrettyCQL = some out ∧ countQ out = 0 := by
  rw [valuesDeclared_eq_length] at hv
  unfold Stmt.PrettyCQL
  rw [values_copy_eq]
  cases hvals : s.Values with
  | nil =>
    rw [hvals] at hv
    have hts : s.Types = [] := List.length_eq_zero.mp (by simpa using hv)
    rw [hts] at hq
    exact ⟨s.Query, rfl, by simpa [holderCount] using hq⟩
  | cons v vs =>
    rw [hvals] at hv hwt
    exact prettyLoop_exhausts s.Types s.Query (v :: vs) hq hv hwt

theorem prettyCQL_exhausts_placeholders_witness :
    (countQ "INSERT INTO t (a, b) VALUES (?,?)".toList =
        holderCount [ColType.simple "int", ColType.bag ⟨"list", "int", false⟩] ∧
      valuesDeclared [ColType.simple "int", ColType.bag ⟨"list", "int", false⟩] ≤
        ([Value.int 7, Value.slice [Value.int 1, Value.int 2]] : Values).length ∧
      wellTypedB [ColType.simple "int", ColType.bag ⟨"list", "int", false⟩]
        [Value.int 7, Value.slice [Value.int 1, Value.int 2]] = true) ∧
    ∃ out,
      Stmt.PrettyCQL
          ⟨"INSERT INTO t (a, b) VALUES (?,?)".toList,
            [ColType.simple "int", ColType.bag ⟨"list", "int", false⟩],
            StatementType.InsertStatementType,
            [Value.int 7, Value.slice [Value.int 1, Value.int 2]]⟩ = some out ∧
        countQ out = 0 :=
  ⟨⟨by decide, by decide, by decide⟩,
    prettyCQL_exhausts_placeholders
      ⟨"INSERT INTO t (a, b) VALUES (?,?)".toList,
        [ColType.simple "int", ColType.bag ⟨"list", "int", false⟩],
        StatementType.InsertStatementType,
        [Value.int 7, Value.slice [Value.int 1, Value.int 2]]⟩
      (by decide) (by decide) (by decide)⟩

/-- Claim C2: a mutation whose `doMutate` attempts fail transiently `k`
times with `k` below `maxRetriesMutate` and then succeed is reported as
success (`nil`); one that fails on all `maxRetriesMutate` attempts returns
the last error, which the worker counts as exactly one `WriteError`. -/
theorem mutate_retry_semantics (cs : cqlStore) (ctxErr : GoErr)
    (attempt : Nat → Option GoErr) (k : Nat) (st : Status) (e : GoErr) :
    (k < cs.maxRetriesMutate → (∀ i, i < k → attempt i ≠ none) → attempt k = none →
      cs.mutate (fun _ => false) ctxErr attempt = none) ∧
    (0 < cs.maxRetriesMutate → (∀ i, i < cs.maxRetriesMutate → attempt i ≠ none) →
      cs.mutate (fun _ => false) ctxErr attempt = attempt (cs.maxRetriesMutate - 1) ∧
      (attempt (cs.maxRetriesMutate - 1) = some e →
        (mutateStep st (some e)).WriteErrors = st.WriteErrors + 1)) := by
  constructor
  · intro hk hfail hsucc
    exact mutateLoop_success attempt ctxErr cs.maxRetriesMutate k 0 none hk
      (fun i _ h2 => hfail i (by omega)) (by simpa using hsucc)
  · intro hpos hfail
    refine ⟨?_, fun _ => rfl⟩
    have h := mutateLoop_all_fail attempt ctxErr cs.maxRetriesMutate 0 none hpos
      (fun i _ h2 => hfail i (by omega))
    simpa [cqlStore.mutate] using h

theorem mutate_retry_semantics_witness :
    (0 < (3 : Nat) ∧
      cqlStore.mutate ⟨"test", 3⟩ (fun _ => false) GoErr.canceled (fun _ => none) = none) ∧
    (cqlStore.mutate ⟨"test", 3⟩ (fun _ => false) GoErr.canceled
        (fun _ => some (GoErr.other "boom")) = some (GoErr.other "boom") ∧
      (mutateStep ⟨0, 0, 0, 0⟩ (some (GoErr.other "boom"))).WriteErrors = 0 + 1) :=
  ⟨⟨by decide,
    (mutate_retry_semantics ⟨"test", 3⟩ GoErr.canceled (fun _ => none) 0 ⟨0, 0, 0, 0⟩
        (GoErr.other "boom")).1
      (by decide) (fun i hi => absurd hi (Nat.not_lt_zero i)) rfl⟩,
   (mutate_retry_semantics ⟨"test", 3⟩ GoErr.canceled (fun _ => some (GoErr.other "boom")) 0
        ⟨0, 0, 0, 0⟩ (GoErr.other "boom")).2
      (by decide) (fun i _ => by decide)
     |>.imp id (fun h => h rfl)⟩

/-- Claim C3 counterexample: a wrapped cancellation is not *equal* to
`context.Canceled` or `context.DeadlineExceeded`, yet `doMutate` swallows
it (returns `nil`) instead of propagating it wrapped, because `ignore`
classifies errors with `errors.Is`, which unwraps the cause chain. -/
theorem doMutate_wrapped_cancellation_swallowed :
    GoErr.wrapped "io" GoErr.canceled ≠ GoErr.canceled ∧
    GoErr.wrapped "io" GoErr.canceled ≠ GoErr.deadlineExceeded ∧
    cqlStore.doMutate ⟨"test", 1⟩ "q" (some (GoErr.wrapped "io" GoErr.canceled)) = none := by
  refine ⟨by decide, by decide, by decide⟩

/-- Claim C3 (amended): an underlying error whose `errors.Is` unwrap chain
reaches `context.Canceled` or `context.DeadlineExceeded` is swallowed by
the single mutation attempt (`doMutate` returns `nil`); every error for
which `errors.Is` reports neither is propagated wrapped with cluster and
query context.  In particular an error equal to one of the two sentinels
is swallowed. -/
theorem doMutate_swallow_classification (cs : cqlStore) (q : String) (e : GoErr) :
    ((e.is GoErr.canceled = true ∨ e.is GoErr.deadlineExceeded = true) →
      cs.doMutate q (some e) = none) ∧
    (e.is GoErr.canceled = false → e.is GoErr.deadlineExceeded = false →
      cs.doMutate q (some e) = some (GoErr.wrapped (wrapMsg cs.system q) e)) ∧
    ((e = GoErr.canceled ∨ e = GoErr.deadlineExceeded) → cs.doMutate q (some e) = none) := by
  refine ⟨?_, ?_, ?_⟩
  · rintro (h | h) <;> simp [cqlStore.doMutate, ignore, h]
  · intro h1 h2
    simp [cqlStore.doMutate, ignore, h1, h2]
  · rintro (rfl | rfl) <;> rfl

theorem doMutate_swallow_classification_witness :
    ((GoErr.wrapped "io" GoErr.canceled).is GoErr.canceled = true ∧
      cqlStore.doMutate ⟨"test", 1⟩ "q" (some (GoErr.wrapped "io" GoErr.canceled)) = none) ∧
    ((GoErr.other "x").is GoErr.canceled = false ∧
      (GoErr.other "x").is GoErr.deadlineExceeded = false ∧
      cqlStore.doMutate ⟨"test", 1⟩ "q" (some (GoErr.other "x")) =
        some (GoErr.wrapped (wrapMsg "test" "q") (GoErr.other "x"))) ∧
    (cqlStore.doMutate ⟨"test", 1⟩ "q" (some GoErr.canceled) = none) :=
  ⟨⟨by decide,
    (doMutate_swallow_classification ⟨"test", 1⟩ "q" (GoErr.wrapped "io" GoErr.canceled)).1
      (Or.inl (by decide))⟩,
   ⟨by decide, by decide,
    (doMutate_swallow_classification ⟨"test", 1⟩ "q" (GoErr.other "x")).2.1
      (by decide) (by decide)⟩,
   (doMutate_swallow_classification ⟨"test", 1⟩ "q" GoErr.canceled).2.2 (Or.inl rfl)⟩

/-- Claim C5: for worker count `N ≥ 1` and `K ≥ 1` keys per worker,
`runJob` assigns worker `i` the partition range `[i*K, (i+1)*K)`; the `N`
ranges are pairwise disjoint and their union is exactly `[0, N*K)`. -/
theorem runJob_partition_ranges (N K : ℤ) (_hN : 1 ≤ N) (hK : 1 ≤ K) :
    (∀ i : ℤ, runJobRange K i = ⟨i * K, (i + 1) * K⟩) ∧
    (∀ i j : ℤ, i ≠ j →
      (runJobRange K i).toSet ∩ (runJobRange K j).toSet = ∅) ∧
    (⋃ i ∈ Set.Ico (0 : ℤ) N, (runJobRange K i).toSet) = Set.Ico 0 (N * K) := by
  have haux : ∀ i j x : ℤ, i < j →
      x ∈ (runJobRange K i).toSet → x ∈ (runJobRange K j).toSet → False := by
    intro i j x hij hxi hxj
    simp only [runJobRange, PartitionRange.toSet, Set.mem_Ico] at hxi hxj
    have hstep : (i + 1) * K ≤ j * K :=
      mul_le_mul_of_nonneg_right (by omega) (by omega)
    have he : (i + 1) * K = i * K + K := by ring
    have hzi : (0 : ℤ) + i * K = i * K := by ring
    omega
  refine ⟨?_, ?_, ?_⟩
  · intro i
    simp only [runJobRange, PartitionRange.mk.injEq]
    constructor <;> ring
  · intro i j hij
    rw [Set.eq_empty_iff_forall_not_mem]
    rintro x ⟨hxi, hxj⟩
    rcases lt_or_gt_of_ne hij with h | h
    · exact haux i j x h hxi hxj
    · exact haux j i x h hxj hxi
  · ext x
    simp only [Set.mem_iUnion, Set.mem_Ico, runJobRange, PartitionRange.toSet,
      exists_prop]
    constructor
    · rintro ⟨i, ⟨hi0, hiN⟩, hx1, hx2⟩
      have h1 : (0 : ℤ) ≤ i * K := mul_nonneg hi0 (by omega)
      have h2 : (i + 1) * K ≤ N * K :=
        mul_le_mul_of_nonneg_right (by omega) (by omega)
      have he : (i + 1) * K = i * K + K := by ring
      omega
    · rintro ⟨hx0, hxN⟩
      have hK0 : (0 : ℤ) < K := by omega
      have hdm := Int.ediv_add_emod x K
      have hm0 : (0 : ℤ) ≤ x % K := Int.emod_nonneg x (by omega)
      have hmK : x % K < K := Int.emod_lt_of_pos x hK0
      have hcomm : (x / K) * K = K * (x / K) := by ring
      refine ⟨x / K, ⟨Int.ediv_nonneg hx0 (by omega), ?_⟩, ?_, ?_⟩
      · exact (Int.ediv_lt_iff_lt_mul hK0).mpr hxN
      · omega
      · omega

theorem runJob_partition_ranges_witness :
    ((1 : ℤ) ≤ 2 ∧ (1 : ℤ) ≤ 3) ∧
    ((∀ i : ℤ, runJobRange 3 i = ⟨i * 3, (i + 1) * 3⟩) ∧
      (∀ i j : ℤ, i ≠ j →
        (runJobRange 3 i).toSet ∩ (runJobRange 3 j).toSet = ∅) ∧
      (⋃ i ∈ Set.Ico (0 : ℤ) 2, (runJobRange 3 i).toSet) = Set.Ico 0 (2 * 3)) :=
  ⟨⟨by decide, by decide⟩, runJob_partition_ranges 2 3 (by decide) (by decide)⟩
